import Mathlib

/-
Verification of the Guitar-Hero-FRP simulation core (src/main.ts).

Shallow embedding conventions:
* JavaScript numbers are modelled as exact rationals (ℚ).  The source itself
  rounds simulated time to millisecond precision on every tick precisely to
  keep the values exact decimals, so the rational model coincides with the
  intended arithmetic.
* JavaScript object-reference equality on circle objects (the source marks the
  selected circle with `circle === prioritizedCircle`) is modelled by list
  position: within any reachable state every position of `circles` holds a
  distinct object, so selection-by-reference is selection-by-index.
* `NaN` produced by `Number(...)` on malformed CSV fields is modelled by
  `Option ℚ` (`none` = NaN / undefined) in the parser layer.
-/

namespace GuitarHero

/- `Viewport` constants from the source. -/
namespace Viewport

def CANVAS_WIDTH : ℚ := 200

def CANVAS_HEIGHT : ℚ := 400

def LAST_POSITION : ℚ := 350

end Viewport

/- `Constants` from the source. -/
namespace Constants

def TICK_RATE_MS : ℚ := 10

end Constants

/- `Note` display constants from the source. -/
namespace NoteC

def RADIUS : ℚ := 7/100 * Viewport.CANVAS_WIDTH

def TAIL_WIDTH : ℚ := 10

end NoteC

/- `Time` constants from the source. -/
namespace Time

def OFFSET : ℚ := 35/10

def FORGIVING_MARGIN : ℚ := 30/100

end Time

/-- `NoteData` record from the source; `played_at: number | null` becomes
`Option ℚ`. -/
structure NoteData where
  user_played : Bool
  instrument : String
  velocity : ℚ
  pitch : ℤ
  start : ℚ
  «end» : ℚ
  played_at : Option ℚ
deriving DecidableEq

/-- `Body` record from the source (a falling circle / token). -/
structure Body where
  r : ℚ
  cx : String
  cy : ℚ
  style : String
  «class» : String
  rendered : Bool
  note : NoteData
  played : Bool
deriving DecidableEq

/-- `State` record from the source. -/
structure State where
  gameEnd : Bool
  circles : List Body
  notes : List NoteData
  autoNotes : List NoteData
  userNotes : List NoteData
  noteIndex : ℤ
  time : ℚ
  lastNote : NoteData
  score : ℤ
  paused : Bool
deriving DecidableEq

/-- `roundedTime` computed inside `tick`: advance by `TICK_RATE_MS / 1000`
seconds and round to millisecond precision (`Math.round(t * 1000) / 1000`;
JavaScript `Math.round x = ⌊x + 1/2⌋`, which is Mathlib `round`). -/
def roundedTimeOf (s : State) : ℚ :=
  ((round ((s.time + Constants.TICK_RATE_MS / 1000) * 1000) : ℤ) : ℚ) / 1000

/-- `updatedNotes` inside `tick`: drop autonomous notes that ended at or before
the previous time, stamp `played_at := previous time` on notes whose start
falls in `[previousTime, roundedTime)` and that are still unplayed. -/
def updatedNotesOf (s : State) : List NoteData :=
  (s.autoNotes.filter (fun note => decide (s.time < note.«end»))).map (fun note =>
    if note.played_at = none ∧ note.start < roundedTimeOf s ∧ s.time ≤ note.start then
      { note with played_at := some s.time }
    else note)

/-- `newNotes` inside `tick`: user notes whose start, offset by the visual lead
time, falls in `[previousTime + OFFSET, roundedTime + OFFSET)`. -/
def newNotesOf (s : State) : List NoteData :=
  s.userNotes.filter (fun note =>
    decide (note.start < roundedTimeOf s + Time.OFFSET ∧
      s.time + Time.OFFSET ≤ note.start))

/-- `circleX` from the source: column and color from `pitch % 4` (JavaScript
`%` is the truncated remainder, `Int.tmod`); any value outside `0..3` falls to
the `default` case, column `"20%"`. -/
def circleX (pitch : ℤ) : String × String :=
  let cx := Int.tmod pitch 4
  if cx = 0 then ("20%", "fill: green")
  else if cx = 1 then ("40%", "fill: red")
  else if cx = 2 then ("60%", "fill: blue")
  else if cx = 3 then ("80%", "fill: yellow")
  else ("20%", "fill: green")

/-- The circle literal built in `newCircles` for one note. -/
def mkCircle (note : NoteData) : Body :=
  { r := NoteC.RADIUS
    cx := (circleX note.pitch).1
    cy := 0
    style := (circleX note.pitch).2
    «class» := "shadow"
    rendered := true
    note := note
    played := false }

/-- `newCircles` inside `tick`. -/
def newCirclesOf (s : State) : List Body :=
  (newNotesOf s).map mkCircle

/-- The per-circle update in `updatedCircles`: circles at or past
`LAST_POSITION` stop being rendered, others fall one unit. -/
def advanceCircle (circle : Body) : Body :=
  if Viewport.LAST_POSITION ≤ circle.cy then
    { circle with rendered := false }
  else
    { circle with cy := circle.cy + 1 }

/-- `updatedCircles` inside `tick`: keep only rendered circles, advance them,
then append the newly spawned circles. -/
def updatedCirclesOf (s : State) : List Body :=
  (s.circles.filter (fun circle => circle.rendered)).map advanceCircle ++ newCirclesOf s

/-- `didGameEnd` inside `tick`: the last note has a non-negative end and the
(pre-tick) time has passed it. -/
def didGameEnd (s : State) : Bool :=
  decide (0 ≤ s.lastNote.«end» ∧ s.lastNote.«end» < s.time)

/-- `tick` from the source: one 10 ms simulation step. -/
def tick (s : State) : State :=
  { s with
    gameEnd := didGameEnd s
    circles := updatedCirclesOf s
    notes := updatedNotesOf s
    noteIndex := s.noteIndex
    time := roundedTimeOf s
    autoNotes := updatedNotesOf s
    userNotes := s.userNotes }

/-- The four lane keys H J K L. -/
inductive LaneKey where
  | H
  | J
  | K
  | L
deriving DecidableEq

/-- `keyToColumn` from the source. -/
def keyToColumn : LaneKey → String
  | .H => "20%"
  | .J => "40%"
  | .K => "60%"
  | .L => "80%"

/-- The merged action stream: a clock tick, a lane key, or the Escape
pause-toggle. -/
inductive GAction where
  | tick
  | key (k : LaneKey)
  | esc
deriving DecidableEq

/-- The eligibility test on one circle in the lane-action branch of `state$`:
matching column, start within 0.7 s of the current time, rendered, unplayed. -/
def eligB (s : State) (k : LaneKey) (circle : Body) : Bool :=
  decide (keyToColumn k = circle.cx) &&
    decide (|circle.note.start - s.time| < 7/10) &&
    circle.rendered && !circle.played

/-- `eligibleCircles` from the lane-action branch, indexed by position (list
position models JavaScript object identity). -/
def eligibleCircles (s : State) (k : LaneKey) : List (ℕ × Body) :=
  s.circles.enum.filter (fun ic => eligB s k ic.2)

/-- The comparison step of the `prioritizedCircle` reduce. -/
def prioStep (acc other : ℕ × Body) : ℕ × Body :=
  if other.2.note.start < acc.2.note.start then other else acc

/-- `prioritizedCircle`: `eligibleCircles.reduce(step, eligibleCircles[0])`;
`undefined` on an empty list becomes `none`. -/
def prioritize : List (ℕ × Body) → Option (ℕ × Body)
  | [] => none
  | x :: xs => some ((x :: xs).foldl prioStep x)

/-- Whether position `i` is the selected circle (`circle === prioritizedCircle`
in the source, rendered as index equality). -/
def markedB : Option (ℕ × Body) → ℕ → Bool
  | some pc, i => i == pc.1
  | none, _ => false

/-- `addedPoints` from the source: 10 within the forgiving margin, 5 for any
other resolved hit, 0 when no circle was selected. -/
def addedPoints (s : State) : Option (ℕ × Body) → ℤ
  | some pc => if |pc.2.note.start - s.time| < Time.FORGIVING_MARGIN then 10 else 5
  | none => 0

/-- The lane-action branch of the `state$` reducer: mark the prioritized
circle as not rendered and played, add the points. -/
def laneUpdate (s : State) (k : LaneKey) : State :=
  let p := prioritize (eligibleCircles s k)
  { s with
    circles := s.circles.enum.map (fun ic =>
      if markedB p ic.1 then { ic.2 with rendered := false, played := true } else ic.2)
    score := s.score + addedPoints s p }

/-- The `scan` reducer of `state$`: Escape toggles `paused`; otherwise, when
unpaused, a tick advances the simulation and a lane key resolves a hit; when
paused everything else passes the state through unchanged. -/
def reduce (s : State) (action : GAction) : State :=
  match action with
  | .esc => { s with paused := !s.paused }
  | .tick => if s.paused = false then tick s else s
  | .key k => if s.paused = false then laneUpdate s k else s

/-- Folding a list of actions through the reducer. -/
def runActions (s : State) (actions : List GAction) : State :=
  actions.foldl reduce s

/-- `initialState` from `main`. -/
def initialState (Notes UserNotes AutoNotes : List NoteData) (LastNote : NoteData) :
    State :=
  { gameEnd := false
    circles := []
    notes := Notes
    userNotes := UserNotes
    autoNotes := AutoNotes
    noteIndex := 0
    time := -Time.OFFSET
    lastNote := LastNote
    score := 0
    paused := false }

/-- `findLast` from the source: `notes.reduce(cmp, notes[0])`; on an empty
array the seed `notes[0]` is `undefined`, modelled as `none`. -/
def findLast (notes : List NoteData) : Option NoteData :=
  match notes with
  | [] => none
  | x :: _ => some (notes.foldl (fun acc other =>
      if acc.«end» < other.«end» then other else acc) x)

/- ### Score parser layer

JavaScript string primitives used by `parseNotes` are modelled structurally on
character lists: `trim`, `split` on a one-character separator, and `Number` on
decimal literals (`NaN` and `undefined` become `none`). -/

/-- `String.prototype.trim`: drop whitespace from both ends. -/
def trimChars (cs : List Char) : List Char :=
  ((cs.dropWhile Char.isWhitespace).reverse.dropWhile Char.isWhitespace).reverse

/-- `String.prototype.split` with a one-character separator; like JavaScript,
an empty input yields a single empty piece. -/
def splitOnChar (sep : Char) : List Char → List (List Char)
  | [] => [[]]
  | c :: cs =>
    let r := splitOnChar sep cs
    if c = sep then [] :: r
    else (c :: r.headD []) :: r.tail

/-- The value of a string of decimal digits. -/
def digitsToNat (cs : List Char) : ℕ :=
  cs.foldl (fun acc c => 10 * acc + (c.toNat - 48)) 0

/-- `Number(str)` on the decimal fragment of the JavaScript numeric grammar:
trims whitespace, the empty string is `0`, an optional sign, digits with at
most one decimal point; everything else is `NaN` (= `none`). -/
def jsNumber (cs : List Char) : Option ℚ :=
  let t := trimChars cs
  if t = [] then some 0
  else
    let sb : ℚ × List Char :=
      match t with
      | '-' :: rest => (-1, rest)
      | '+' :: rest => (1, rest)
      | _ => (1, t)
    match splitOnChar '.' sb.2 with
    | [ip] =>
      if ip ≠ [] ∧ ip.all Char.isDigit then some (sb.1 * (digitsToNat ip : ℚ))
      else none
    | [ip, fp] =>
      if ip ++ fp ≠ [] ∧ (ip ++ fp).all Char.isDigit then
        some (sb.1 * ((digitsToNat ip : ℚ) + (digitsToNat fp : ℚ) / 10 ^ fp.length))
      else none
    | _ => none

/-- `Number` applied to a possibly-`undefined` destructured field
(`Number(undefined)` is `NaN`). -/
def jsNumberOpt : Option (List Char) → Option ℚ
  | none => none
  | some cs => jsNumber cs

/-- The note record produced by one row of `parseNotes`.  A short row leaves
`instrument` `undefined` and the numeric fields `NaN`; both are `none`. -/
structure ParsedNote where
  user_played : Bool
  instrument : Option String
  velocity : Option ℚ
  pitch : Option ℚ
  start : Option ℚ
  «end» : Option ℚ
  played_at : Option ℚ
deriving DecidableEq

/-- One row of `parseNotes`: split on commas, destructure the six fields,
convert.  `start` is rounded to two decimals when it is a number. -/
def parseRow (row : List Char) : ParsedNote :=
  let parts := splitOnChar ',' row
  { user_played := decide (trimChars (parts.headD []) = [ 'T', 'r', 'u', 'e'])
    instrument := (parts[1]?).map (fun cs => String.mk cs)
    velocity := jsNumberOpt parts[2]?
    pitch := jsNumberOpt parts[3]?
    start := (jsNumberOpt parts[4]?).map (fun q => ((round (q * 100) : ℤ) : ℚ) / 100)
    «end» := jsNumberOpt parts[5]?
    played_at := none }

/-- `parseNotes` from the source: trim the blob, split into lines, drop the
header, map every remaining row to a note. -/
def parseNotes (csv : String) : List ParsedNote :=
  ((splitOnChar '\n' (trimChars csv.data)).drop 1).map parseRow

/-- JavaScript `other.end > acc.end` on parsed fields: any comparison against
`NaN`/`undefined` is false. -/
def jsGtOpt : Option ℚ → Option ℚ → Bool
  | some x, some y => decide (y < x)
  | _, _ => false

/-- `findLast` as it runs in `startGame` on freshly parsed notes (fields may
be `NaN`): same reduce, `undefined` seed on an empty list. -/
def findLastP (notes : List ParsedNote) : Option ParsedNote :=
  match notes with
  | [] => none
  | x :: _ => some (notes.foldl (fun acc other =>
      if jsGtOpt other.«end» acc.«end» then other else acc) x)

/- ### Deterministic RNG

The RNG is the one part of the program whose values leave the range where
IEEE-754 binary64 arithmetic is exact: `a * seed` exceeds `2^53` already for
seeds above ~8.1 million, and there double rounding changes the result.  The
binary64 rounding of each arithmetic step is therefore modelled explicitly by
`fl64` (round to nearest, ties to even, 53 significant bits).  The model
covers the normal finite range; the theorems' hypotheses keep all values far
below the overflow threshold, and the constants `a`, `c`, `m`, `m - 1` are
exactly representable.  (The game-state arithmetic needs no such treatment:
the source rounds simulated time to milliseconds each tick precisely to keep
those small decimals exact.) -/

/-- JavaScript number truncation toward zero, used by the `%` operator. -/
def jsTrunc (q : ℚ) : ℤ :=
  if 0 ≤ q then ⌊q⌋ else ⌈q⌉

/-- The JavaScript `%` remainder: `x - y * trunc (x / y)`.  On finite doubles
the remainder operation is exact, so it needs no rounding step of its own. -/
def jsRem (x y : ℚ) : ℚ :=
  x - y * (jsTrunc (x / y) : ℚ)

/-- Round a rational to an integer, half to even — the tie rule of IEEE-754
round-to-nearest. -/
def rneQ (x : ℚ) : ℤ :=
  if x - ⌊x⌋ < 1/2 then ⌊x⌋
  else if (1:ℚ)/2 < x - ⌊x⌋ then ⌊x⌋ + 1
  else if Even ⌊x⌋ then ⌊x⌋ else ⌊x⌋ + 1

/-- IEEE-754 binary64 rounding of an exact rational: keep 53 significant bits,
round to nearest, ties to even.  Normal range only (no overflow to infinity,
no subnormals); every theorem below stays far inside that range. -/
def fl64 (q : ℚ) : ℚ :=
  if q = 0 then 0
  else
    (if 0 ≤ q then 1 else -1) *
      (rneQ (|q| / 2 ^ (Int.log 2 |q| - 52)) : ℚ) * 2 ^ (Int.log 2 |q| - 52)

/- `RNG` from the source: an LCG with GCC constants, computed in binary64
arithmetic — each multiplication, addition and division rounds its exact
result once. -/
namespace RNG

def m : ℚ := 2147483648

def a : ℚ := 1103515245

def c : ℚ := 12345

/-- `hash(seed) = (a * seed + c) % m` in binary64: the product and the sum
each round once; the remainder is exact. -/
def hash (seed : ℚ) : ℚ := jsRem (fl64 (fl64 (a * seed) + c)) m

/-- `scale(hash) = hash / (m - 1)` in binary64: one rounded division. -/
def scale (hashv : ℚ) : ℚ := fl64 (hashv / (m - 1))

end RNG

/- ### Binary64 rounding lemmas -/

/-- Round-half-to-even of an integer is that integer. -/
lemma rneQ_intCast (n : ℤ) : rneQ (n:ℚ) = n := by
  unfold rneQ
  rw [Int.floor_intCast]
  rw [if_pos (by norm_num)]

/-- Round-half-to-even never moves a value up by more than one half. -/
lemma rneQ_le (x : ℚ) : (rneQ x : ℚ) ≤ x + 1/2 := by
  have h1 : (⌊x⌋:ℚ) ≤ x := Int.floor_le x
  have h2 : x - 1 < (⌊x⌋:ℚ) := Int.sub_one_lt_floor x
  unfold rneQ
  split_ifs with hlt hgt hev
  · linarith
  · push_cast
    linarith [not_lt.1 hlt]
  · push_cast
    linarith [not_lt.1 hgt]
  · push_cast
    linarith [not_lt.1 hgt]

/-- Round-half-to-even never moves a value down by more than one half. -/
lemma le_rneQ (x : ℚ) : x - 1/2 ≤ (rneQ x : ℚ) := by
  have h1 : (⌊x⌋:ℚ) ≤ x := Int.floor_le x
  have h2 : x - 1 < (⌊x⌋:ℚ) := Int.sub_one_lt_floor x
  unfold rneQ
  split_ifs with hlt hgt hev
  · linarith
  · push_cast
    linarith
  · linarith [not_lt.1 hlt]
  · push_cast
    linarith

/-- Round-half-to-even does not round below the floor. -/
lemma floor_le_rneQ (x : ℚ) : ⌊x⌋ ≤ rneQ x := by
  unfold rneQ
  split_ifs <;> omega

/-- Round-half-to-even of a nonnegative value is nonnegative. -/
lemma rneQ_nonneg (x : ℚ) (hx : 0 ≤ x) : 0 ≤ rneQ x :=
  le_trans (Int.floor_nonneg.2 hx) (floor_le_rneQ x)

/-- The base-2 logarithm is pinned by a power-of-two sandwich. -/
lemma int_log_eq (q : ℚ) (e : ℤ) (hq : 0 < q) (h1 : (2:ℚ)^e ≤ q)
    (h2 : q < (2:ℚ)^(e+1)) : Int.log 2 q = e := by
  have ha : e ≤ Int.log 2 q :=
    (Int.zpow_le_iff_le_log (by norm_num) hq).1 (by exact_mod_cast h1)
  have hb : Int.log 2 q < e + 1 :=
    (Int.lt_zpow_iff_log_lt (by norm_num) hq).1 (by exact_mod_cast h2)
  omega

/-- Evaluation rule for `fl64` on a positive value sandwiched in a binade:
divide out the unit in the last place `2^e`, round half to even, scale back. -/
lemma fl64_eval (q : ℚ) (e : ℤ) (h1 : (2:ℚ)^(e+52) ≤ q) (h2 : q < (2:ℚ)^(e+53)) :
    fl64 q = (rneQ (q / 2^e) : ℚ) * 2^e := by
  have hq : 0 < q := lt_of_lt_of_le (zpow_pos (by norm_num) _) h1
  have habs : |q| = q := abs_of_pos hq
  have hlog : Int.log 2 q = e + 52 :=
    int_log_eq q (e+52) hq h1 (by rw [show e+52+1 = e+53 by ring]; exact h2)
  unfold fl64
  rw [if_neg (ne_of_gt hq), habs, hlog, if_pos (le_of_lt hq),
    show e + 52 - 52 = e by ring]
  ring

/-- `fl64` fixes zero. -/
lemma fl64_zero : fl64 0 = 0 := by
  unfold fl64
  rw [if_pos rfl]

/-- `fl64` preserves nonnegativity. -/
lemma fl64_nonneg (q : ℚ) (h : 0 ≤ q) : 0 ≤ fl64 q := by
  rcases h.eq_or_lt with heq | h0
  · rw [← heq, fl64_zero]
  · unfold fl64
    rw [if_neg (ne_of_gt h0), if_pos (le_of_lt h0), one_mul]
    have hr : 0 ≤ rneQ (|q| / 2 ^ (Int.log 2 |q| - 52)) :=
      rneQ_nonneg _ (div_nonneg (abs_nonneg q) (le_of_lt (zpow_pos (by norm_num) _)))
    exact mul_nonneg (by exact_mod_cast hr) (le_of_lt (zpow_pos (by norm_num) _))

/- ### Helper lemmas -/

/-- Advancing a circle never touches the note it is bound to. -/
lemma advanceCircle_note (circle : Body) : (advanceCircle circle).note = circle.note := by
  unfold advanceCircle
  split <;> rfl

/-- A freshly spawned circle is bound to the note it was spawned for. -/
lemma mkCircle_note (note : NoteData) : (mkCircle note).note = note := rfl

/-- One tick strictly advances simulated time: the millisecond rounding can
move the exact value by at most half a millisecond, far less than the 10 ms
step. -/
lemma time_lt_roundedTime (s : State) : s.time < roundedTimeOf s := by
  have hfl : (s.time + Constants.TICK_RATE_MS / 1000) * 1000 - 1/2 <
      ((round ((s.time + Constants.TICK_RATE_MS / 1000) * 1000) : ℤ) : ℚ) := by
    rw [round_eq]
    have := Int.sub_one_lt_floor ((s.time + Constants.TICK_RATE_MS / 1000) * 1000 + 1/2)
    push_cast at this ⊢
    linarith
  unfold roundedTimeOf
  rw [lt_div_iff₀ (by norm_num : (0:ℚ) < 1000)]
  unfold Constants.TICK_RATE_MS at hfl ⊢
  linarith

/-- The selected circle transformation of the lane branch never touches notes:
mapped over the enumerated circle list it leaves the list of bound notes
unchanged. -/
lemma map_note_enumFrom_mark (p : Option (ℕ × Body)) :
    ∀ (n : ℕ) (l : List Body),
      (((List.enumFrom n l).map (fun ic =>
        if markedB p ic.1 then { ic.2 with rendered := false, played := true }
        else ic.2)).map (fun c => c.note)) = l.map (fun c => c.note) := by
  intro n l
  induction l generalizing n with
  | nil => rfl
  | cons x xs ih =>
    simp only [List.enumFrom_cons, List.map_cons, ih]
    split <;> rfl

/-- The circle list produced by the lane branch keeps the bound notes of the
input circle list. -/
lemma laneUpdate_map_note (s : State) (k : LaneKey) :
    ((laneUpdate s k).circles.map (fun c => c.note)) = s.circles.map (fun c => c.note) := by
  unfold laneUpdate
  exact map_note_enumFrom_mark _ 0 s.circles

/-- Characterization of the `prioritizedCircle` fold: either the accumulator
survives and bounds every list entry, or the result splits the list, beats the
accumulator, strictly beats everything before it and bounds everything after
it. -/
lemma foldl_prioStep (l : List (ℕ × Body)) (acc : ℕ × Body) :
    (l.foldl prioStep acc = acc ∧
      ∀ q ∈ l, acc.2.note.start ≤ q.2.note.start) ∨
    (∃ pre post, l = pre ++ (l.foldl prioStep acc) :: post ∧
      (l.foldl prioStep acc).2.note.start < acc.2.note.start ∧
      (∀ q ∈ pre, (l.foldl prioStep acc).2.note.start < q.2.note.start) ∧
      (∀ q ∈ post, (l.foldl prioStep acc).2.note.start ≤ q.2.note.start)) := by
  induction l generalizing acc with
  | nil => exact Or.inl ⟨rfl, by simp⟩
  | cons x xs ih =>
    by_cases hx : x.2.note.start < acc.2.note.start
    · have hstep : prioStep acc x = x := by simp [prioStep, hx]
      have hfold : (x :: xs).foldl prioStep acc = xs.foldl prioStep x := by
        simp [List.foldl_cons, hstep]
      rcases ih x with ⟨hr, hall⟩ | ⟨pre, post, heq, hlt, hpre, hpost⟩
      · refine Or.inr ⟨[], xs, ?_, ?_, ?_, ?_⟩
        · simp [hfold, hr]
        · rw [hfold, hr]; exact hx
        · simp
        · intro q hq; rw [hfold, hr]; exact hall q hq
      · refine Or.inr ⟨x :: pre, post, ?_, ?_, ?_, ?_⟩
        · rw [hfold]; simpa using congrArg (x :: ·) heq
        · rw [hfold]; exact lt_trans hlt hx
        · intro q hq
          rw [hfold]
          rcases List.mem_cons.1 hq with rfl | hq'
          · exact hlt
          · exact hpre q hq'
        · intro q hq; rw [hfold]; exact hpost q hq
    · have hstep : prioStep acc x = acc := by simp [prioStep, hx]
      have hfold : (x :: xs).foldl prioStep acc = xs.foldl prioStep acc := by
        simp [List.foldl_cons, hstep]
      rcases ih acc with ⟨hr, hall⟩ | ⟨pre, post, heq, hlt, hpre, hpost⟩
      · refine Or.inl ⟨by rw [hfold, hr], ?_⟩
        intro q hq
        rcases List.mem_cons.1 hq with rfl | hq'
        · exact le_of_not_lt hx
        · exact hall q hq'
      · refine Or.inr ⟨x :: pre, post, ?_, ?_, ?_, ?_⟩
        · rw [hfold]; simpa using congrArg (x :: ·) heq
        · rw [hfold]; exact hlt
        · intro q hq
          rw [hfold]
          rcases List.mem_cons.1 hq with rfl | hq'
          · exact lt_of_lt_of_le hlt (le_of_not_lt hx)
          · exact hpre q hq'
        · intro q hq; rw [hfold]; exact hpost q hq

/-- The selected circle is the first list entry attaining the earliest note
start: it splits the candidate list, strictly beats everything before it and
bounds everything after it. -/
lemma prioritize_spec (l : List (ℕ × Body)) (p : ℕ × Body)
    (hp : prioritize l = some p) :
    ∃ pre post, l = pre ++ p :: post ∧
      (∀ q ∈ pre, p.2.note.start < q.2.note.start) ∧
      (∀ q ∈ post, p.2.note.start ≤ q.2.note.start) := by
  match l, hp with
  | x :: xs, hp =>
    have hxx : prioStep x x = x := by simp [prioStep]
    have hp' : xs.foldl prioStep x = p := by
      have : (x :: xs).foldl prioStep x = p := by exact Option.some_injective _ hp
      simpa [List.foldl_cons, hxx] using this
    rcases foldl_prioStep xs x with ⟨hr, hall⟩ | ⟨pre, post, heq, hlt, hpre, hpost⟩
    · refine ⟨[], xs, ?_, by simp, ?_⟩
      · rw [← hp', hr]; rfl
      · intro q hq
        rw [← hp', hr]
        exact hall q hq
    · rw [hp'] at heq hlt hpre hpost
      refine ⟨x :: pre, post, by rw [heq]; rfl, ?_, hpost⟩
      intro q hq
      rcases List.mem_cons.1 hq with rfl | hq'
      · exact hlt
      · exact hpre q hq'

/-- The selected circle is one of the candidates. -/
lemma prioritize_mem (l : List (ℕ × Body)) (p : ℕ × Body)
    (hp : prioritize l = some p) : p ∈ l := by
  obtain ⟨pre, post, heq, -, -⟩ := prioritize_spec l p hp
  rw [heq]
  exact List.mem_append.2 (Or.inr (List.mem_cons_self _ _))

/-- The selected circle has the earliest note start among the candidates. -/
lemma prioritize_min (l : List (ℕ × Body)) (p : ℕ × Body)
    (hp : prioritize l = some p) :
    ∀ q ∈ l, p.2.note.start ≤ q.2.note.start := by
  obtain ⟨pre, post, heq, hpre, hpost⟩ := prioritize_spec l p hp
  intro q hq
  rw [heq] at hq
  rcases List.mem_append.1 hq with hq' | hq'
  · exact le_of_lt (hpre q hq')
  · rcases List.mem_cons.1 hq' with rfl | hq''
    · exact le_refl _
    · exact hpost q hq''

/-- The eligibility test, unfolded into its four conditions. -/
lemma eligB_iff (s : State) (k : LaneKey) (circle : Body) :
    eligB s k circle = true ↔
      keyToColumn k = circle.cx ∧ |circle.note.start - s.time| < 7/10 ∧
        circle.rendered = true ∧ circle.played = false := by
  simp [eligB, and_assoc]

/-- While unpaused, a lane key runs the lane branch. -/
lemma reduce_key (s : State) (k : LaneKey) (h : s.paused = false) :
    reduce s (GAction.key k) = laneUpdate s k := by
  simp [reduce, h]

/-- While unpaused, a clock action runs `tick`. -/
lemma reduce_tick (s : State) (h : s.paused = false) :
    reduce s GAction.tick = tick s := by
  simp [reduce, h]

/- ### Concrete sample data for witnesses and counterexamples -/

/-- A user-playable piano note on lane 0 with the given start and end. -/
def noteAt (st en : ℚ) : NoteData :=
  { user_played := true, instrument := "piano", velocity := 64, pitch := 60,
    start := st, «end» := en, played_at := none }

/-- The circle spawned for `noteAt st en`. -/
def circleAt (st en : ℚ) : Body := mkCircle (noteAt st en)

/-- A quiescent state to perturb in concrete scenarios. -/
def baseState : State :=
  { gameEnd := false, circles := [], notes := [], autoNotes := [],
    userNotes := [], noteIndex := 0, time := 0, lastNote := noteAt 0 0,
    score := 0, paused := false }

/-- A state holding one on-screen circle for the note starting at `t = 2`,
observed exactly at `t = 2`. -/
def hitState : State := { baseState with time := 2, circles := [circleAt 2 (5/2)] }

/-- In `hitState`, lane key H selects the single on-screen circle. -/
lemma hitState_prio :
    prioritize (eligibleCircles hitState LaneKey.H) = some (0, circleAt 2 (5/2)) := by
  have htmod : Int.tmod 60 4 = 0 := by decide
  have helig : eligibleCircles hitState LaneKey.H = [(0, circleAt 2 (5/2))] := by
    unfold eligibleCircles hitState baseState
    simp only [List.enum]
    norm_num [List.enumFrom, List.filter, eligB, keyToColumn, circleAt, mkCircle, noteAt,
      circleX, htmod]
  rw [helig]
  rfl

/-- C5: for every state with `paused = true`, applying any action other than
the pause toggle (a tick or any lane-key action) yields a state equal to the
input state in every field; in particular simulated time does not advance
while paused. -/
theorem pause_freeze (s : State) (a : GAction) (h : s.paused = true)
    (hne : a ≠ GAction.esc) : reduce s a = s := by
  cases a with
  | tick => simp [reduce, h]
  | key k => simp [reduce, h]
  | esc => exact absurd rfl hne

/-- Witness for C5 at a concrete paused state, for both a tick and a lane
key. -/
theorem pause_freeze_witness :
    ({ baseState with paused := true } : State).paused = true ∧
      reduce { baseState with paused := true } GAction.tick =
        { baseState with paused := true } ∧
      reduce { baseState with paused := true } (GAction.key LaneKey.H) =
        { baseState with paused := true } :=
  ⟨rfl, pause_freeze _ _ rfl (by simp), pause_freeze _ _ rfl (by simp)⟩

/-- C10: for every state with `paused = false`, a lane-key action changes at
most the circle list and the score: time, game end, pause flag, the pending
autonomous notes, the user notes, the full note list, the final note and the
note index are untouched. -/
theorem lane_action_frame (s : State) (k : LaneKey) (h : s.paused = false) :
    (reduce s (GAction.key k)).time = s.time ∧
    (reduce s (GAction.key k)).gameEnd = s.gameEnd ∧
    (reduce s (GAction.key k)).paused = s.paused ∧
    (reduce s (GAction.key k)).autoNotes = s.autoNotes ∧
    (reduce s (GAction.key k)).userNotes = s.userNotes ∧
    (reduce s (GAction.key k)).notes = s.notes ∧
    (reduce s (GAction.key k)).lastNote = s.lastNote ∧
    (reduce s (GAction.key k)).noteIndex = s.noteIndex := by
  rw [reduce_key s k h]
  unfold laneUpdate
  exact ⟨rfl, rfl, rfl, rfl, rfl, rfl, rfl, rfl⟩

/-- Witness for C10 at a concrete unpaused state. -/
theorem lane_action_frame_witness :
    hitState.paused = false ∧
      (reduce hitState (GAction.key LaneKey.H)).time = hitState.time ∧
      (reduce hitState (GAction.key LaneKey.H)).autoNotes = hitState.autoNotes :=
  ⟨rfl, (lane_action_frame hitState LaneKey.H rfl).1,
    (lane_action_frame hitState LaneKey.H rfl).2.2.2.1⟩

/-- C2: on a lane-key action while unpaused, the score grows by exactly 10
when a circle is selected whose note start is strictly within 0.30 s of the
current time, by exactly 5 when a circle is selected at 0.30 s or more (it is
then still strictly within the 0.7 s eligibility window), and by 0 when no
circle is selected. -/
theorem scoring_tiers (s : State) (k : LaneKey) (h : s.paused = false) :
    (prioritize (eligibleCircles s k) = none →
      (reduce s (GAction.key k)).score = s.score) ∧
    (∀ p, prioritize (eligibleCircles s k) = some p →
      |p.2.note.start - s.time| < 7/10 ∧
      (|p.2.note.start - s.time| < 30/100 →
        (reduce s (GAction.key k)).score = s.score + 10) ∧
      (30/100 ≤ |p.2.note.start - s.time| →
        (reduce s (GAction.key k)).score = s.score + 5)) := by
  rw [reduce_key s k h]
  constructor
  · intro hnone
    unfold laneUpdate
    simp [hnone, addedPoints]
  · intro p hp
    have hmem : p ∈ eligibleCircles s k := prioritize_mem _ _ hp
    have helig : eligB s k p.2 = true := (List.mem_filter.1 hmem).2
    have habs : |p.2.note.start - s.time| < 7/10 := ((eligB_iff s k p.2).1 helig).2.1
    refine ⟨habs, ?_, ?_⟩
    · intro hm
      unfold laneUpdate
      have hmargin : |p.2.note.start - s.time| < Time.FORGIVING_MARGIN := by
        unfold Time.FORGIVING_MARGIN
        exact hm
      simp [hp, addedPoints, hmargin]
    · intro hm
      unfold laneUpdate
      have hmargin : ¬ |p.2.note.start - s.time| < Time.FORGIVING_MARGIN := by
        unfold Time.FORGIVING_MARGIN
        exact not_lt.2 hm
      simp [hp, addedPoints, hmargin]

/-- C3: one tick removes from the autonomous-note list exactly the notes whose
end is at or before the previous time; among the survivors exactly the
still-unplayed notes whose start lies in `[previousTime, newTime)` get
`played_at := previousTime`; every other survivor passes through unchanged,
and a present `played_at` is never overwritten. -/
theorem tick_autoNotes (s : State) :
    ((tick s).autoNotes =
      (s.autoNotes.filter (fun note => decide (s.time < note.«end»))).map (fun note =>
        if note.played_at = none ∧ s.time ≤ note.start ∧ note.start < (tick s).time then
          { note with played_at := some s.time }
        else note)) ∧
    (∀ note ∈ s.autoNotes, s.time < note.«end» → note.played_at ≠ none →
      note ∈ (tick s).autoNotes) ∧
    (∀ note' ∈ (tick s).autoNotes, ∃ note ∈ s.autoNotes, s.time < note.«end» ∧
      (note' = note ∨
        (note.played_at = none ∧ s.time ≤ note.start ∧ note.start < (tick s).time ∧
          note' = { note with played_at := some s.time }))) := by
  have htime : (tick s).time = roundedTimeOf s := rfl
  have hauto : (tick s).autoNotes = updatedNotesOf s := rfl
  refine ⟨?_, ?_, ?_⟩
  · rw [hauto, htime]
    unfold updatedNotesOf
    refine List.map_congr_left ?_
    intro note _
    have hiff : (note.played_at = none ∧ note.start < roundedTimeOf s ∧
        s.time ≤ note.start) ↔
        (note.played_at = none ∧ s.time ≤ note.start ∧
          note.start < roundedTimeOf s) := by tauto
    exact if_congr hiff rfl rfl
  · intro note hmem hend hplayed
    rw [hauto]
    unfold updatedNotesOf
    refine List.mem_map.2 ⟨note, List.mem_filter.2 ⟨hmem, by simpa using hend⟩, ?_⟩
    simp [hplayed]
  · intro note' hmem'
    rw [hauto] at hmem'
    unfold updatedNotesOf at hmem'
    obtain ⟨note, hmemf, heq⟩ := List.mem_map.1 hmem'
    obtain ⟨hmem, hend⟩ := List.mem_filter.1 hmemf
    refine ⟨note, hmem, by simpa using hend, ?_⟩
    by_cases hc : note.played_at = none ∧ note.start < roundedTimeOf s ∧
        s.time ≤ note.start
    · rw [if_pos hc] at heq
      exact Or.inr ⟨hc.1, hc.2.2, by rw [htime]; exact hc.2.1, heq.symm⟩
    · rw [if_neg hc] at heq
      exact Or.inl heq.symm

/-- A state with one expired, one already-played, one due and one future
autonomous note, used to witness C3. -/
def autoState : State :=
  { baseState with
    time := 1
    autoNotes :=
      [{ noteAt 0 (1/2) with user_played := false },
        { noteAt (1/2) 2 with user_played := false, played_at := some (1/2) },
        { noteAt 1 (3/2) with user_played := false },
        { noteAt 3 4 with user_played := false }] }

/-- Witness for C3: in the concrete state the already-played survivor passes
through unchanged. -/
theorem tick_autoNotes_witness :
    ({ noteAt (1/2) 2 with user_played := false, played_at := some (1/2) } : NoteData) ∈
      (tick autoState).autoNotes := by
  refine (tick_autoNotes autoState).2.1 _ ?_ ?_ ?_
  · simp [autoState, baseState]
  · norm_num [autoState, baseState, noteAt]
  · simp [noteAt]

/-- The lane column of a spawned circle is the `pitch mod 4` entry of the
four-lane table (JavaScript `%` is the truncated remainder; every value
outside `0..3` lands on the defensive default, lane 0). -/
lemma circleX_fst (pitch : ℤ) :
    (circleX pitch).1 = ["20%", "40%", "60%", "80%"].getD (Int.tmod pitch 4).toNat "20%" := by
  unfold circleX
  by_cases h0 : Int.tmod pitch 4 = 0
  · simp [h0, List.getD]
  · by_cases h1 : Int.tmod pitch 4 = 1
    · simp [h1, List.getD]
    · by_cases h2 : Int.tmod pitch 4 = 2
      · simp [h2, List.getD]
      · by_cases h3 : Int.tmod pitch 4 = 3
        · simp [h3, List.getD]
        · have hcase : (Int.tmod pitch 4).toNat = 0 ∨ 4 ≤ (Int.tmod pitch 4).toNat := by
            omega
          simp only [if_neg h0, if_neg h1, if_neg h2, if_neg h3]
          rcases hcase with hc | hc
          · rw [hc]
            rfl
          · rw [List.getD_eq_default _ _ (by simpa using hc)]

/-- C4: one tick spawns exactly one circle per user note whose start falls in
`[previousTime + 3.5, newTime + 3.5)`; each spawned circle sits at the top of
the fall path in the lane given by `pitch mod 4`, rendered and unplayed, and
the updated pre-existing circles come first, followed by the spawned ones. -/
theorem tick_spawn (s : State) :
    ((tick s).circles =
      (s.circles.filter (fun circle => circle.rendered)).map advanceCircle ++
        (s.userNotes.filter (fun note =>
          decide (s.time + Time.OFFSET ≤ note.start ∧
            note.start < (tick s).time + Time.OFFSET))).map mkCircle) ∧
    ∀ note : NoteData, (mkCircle note).cy = 0 ∧ (mkCircle note).rendered = true ∧
      (mkCircle note).played = false ∧ (mkCircle note).note = note ∧
      (mkCircle note).cx =
        ["20%", "40%", "60%", "80%"].getD (Int.tmod note.pitch 4).toNat "20%" := by
  constructor
  · show updatedCirclesOf s = _
    unfold updatedCirclesOf newCirclesOf newNotesOf
    have hfilter : s.userNotes.filter (fun note =>
        decide (note.start < roundedTimeOf s + Time.OFFSET ∧
          s.time + Time.OFFSET ≤ note.start)) =
        s.userNotes.filter (fun note =>
          decide (s.time + Time.OFFSET ≤ note.start ∧
            note.start < (tick s).time + Time.OFFSET)) := by
      refine List.filter_congr ?_
      intro note _
      exact decide_eq_decide.2 (by constructor <;> exact fun h => ⟨h.2, h.1⟩)
    rw [hfilter]
  · intro note
    exact ⟨rfl, rfl, rfl, rfl, circleX_fst note.pitch⟩

/-- A state whose last note ends half a tick after the current time: the next
tick moves simulated time past the end, yet the flag is computed from the
pre-tick time and stays false. -/
def lagState : State := { baseState with lastNote := noteAt 0 (1/200) }

/-- C6 counterexample: after one tick from `lagState`, the final note's end is
non-negative and the new simulated time exceeds it, yet `gameEnd` is false —
the flag is one tick late relative to the claim's reading. -/
theorem game_end_cex :
    0 ≤ lagState.lastNote.«end» ∧ lagState.lastNote.«end» < (tick lagState).time ∧
      (tick lagState).gameEnd = false := by
  have ht : (tick lagState).time = 1/100 := by
    show roundedTimeOf lagState = 1/100
    unfold roundedTimeOf lagState baseState Constants.TICK_RATE_MS
    rw [round_eq]
    norm_num
  refine ⟨by norm_num [lagState, baseState, noteAt], ?_, ?_⟩
  · rw [ht]
    norm_num [lagState, baseState, noteAt]
  · show didGameEnd lagState = false
    unfold didGameEnd lagState baseState noteAt
    rw [decide_eq_false_iff_not]
    norm_num

/-- C6 (amended): the flag set by a tick reads the pre-tick simulated time
(`ended` is true exactly when the final end is non-negative and the previous
time exceeds it — one tick later than the claim's post-tick reading); and once
a state has the flag set with its time already past a non-negative final end
(as any tick-produced ended state does), every further action sequence keeps
the flag set. -/
theorem game_end_amended (s : State) :
    ((tick s).gameEnd = true ↔ 0 ≤ s.lastNote.«end» ∧ s.lastNote.«end» < s.time) ∧
    (s.gameEnd = true → 0 ≤ s.lastNote.«end» → s.lastNote.«end» < s.time →
      ∀ acts : List GAction, (runActions s acts).gameEnd = true) := by
  have hstep : ∀ (t : State) (a : GAction),
      t.gameEnd = true ∧ 0 ≤ t.lastNote.«end» ∧ t.lastNote.«end» < t.time →
      (reduce t a).gameEnd = true ∧ 0 ≤ (reduce t a).lastNote.«end» ∧
        (reduce t a).lastNote.«end» < (reduce t a).time := by
    intro t a h
    obtain ⟨hg, h0, ht⟩ := h
    cases a with
    | esc => exact ⟨hg, h0, ht⟩
    | tick =>
      cases hps : t.paused with
      | false =>
        rw [reduce_tick t hps]
        refine ⟨?_, h0, lt_trans ht (time_lt_roundedTime t)⟩
        show didGameEnd t = true
        simp only [didGameEnd, decide_eq_true_eq]
        exact ⟨h0, ht⟩
      | true =>
        have hid : reduce t GAction.tick = t := by simp [reduce, hps]
        rw [hid]
        exact ⟨hg, h0, ht⟩
    | key k =>
      cases hps : t.paused with
      | false =>
        rw [reduce_key t k hps]
        exact ⟨hg, h0, ht⟩
      | true =>
        have hid : reduce t (GAction.key k) = t := by simp [reduce, hps]
        rw [hid]
        exact ⟨hg, h0, ht⟩
  constructor
  · show didGameEnd s = true ↔ _
    simp [didGameEnd]
  · intro hg h0 ht acts
    have hrun : ∀ (acts : List GAction) (t : State),
        t.gameEnd = true ∧ 0 ≤ t.lastNote.«end» ∧ t.lastNote.«end» < t.time →
        (runActions t acts).gameEnd = true := by
      intro acts
      induction acts with
      | nil => exact fun t h => h.1
      | cons a rest ih =>
        intro t h
        exact ih (reduce t a) (hstep t a h)
    exact hrun acts s ⟨hg, h0, ht⟩

/-- A concrete ended state: flag set, time already past the final end. -/
def endedState : State :=
  { baseState with gameEnd := true, time := 1, lastNote := noteAt 0 (1/2) }

/-- Witness for the amended C6: from the concrete ended state, a tick, a lane
hit, a pause toggle and a paused tick all keep the flag set. -/
theorem game_end_amended_witness :
    (runActions endedState
      [GAction.tick, GAction.key LaneKey.H, GAction.esc, GAction.tick]).gameEnd = true := by
  refine (game_end_amended endedState).2 rfl ?_ ?_ _
  · norm_num [endedState, baseState, noteAt]
  · norm_num [endedState, baseState, noteAt]

/-- `fl64` on a natural number: the result is a natural number; below `2^53`
binary64 is exact; at or above `2^53` every representable value is even (the
unit in the last place is at least 2) and stays at or above `2^53`. -/
lemma fl64_natCast (n : ℕ) :
    ∃ m : ℕ, fl64 (n:ℚ) = (m:ℚ) ∧ ((n:ℚ) < 2^53 → m = n) ∧
      ((2:ℚ)^53 ≤ (n:ℚ) → 2 ∣ m ∧ (2:ℚ)^53 ≤ (m:ℚ)) := by
  rcases Nat.eq_zero_or_pos n with rfl | hn
  · refine ⟨0, by simpa using fl64_zero, fun _ => rfl, fun h => absurd h (by norm_num)⟩
  have hq : (0:ℚ) < (n:ℚ) := by exact_mod_cast hn
  have hlow : (2:ℚ) ^ Int.log 2 (n:ℚ) ≤ (n:ℚ) := by
    have := Int.zpow_log_le_self (b := 2) (by norm_num) hq
    push_cast at this
    exact this
  have hhigh : (n:ℚ) < (2:ℚ) ^ (Int.log 2 (n:ℚ) + 1) := by
    have := Int.lt_zpow_succ_log_self (b := 2) (by norm_num) (n:ℚ)
    push_cast at this
    exact this
  have he0 : 0 ≤ Int.log 2 (n:ℚ) := by
    have h1n : ((2:ℕ):ℚ) ^ (0:ℤ) ≤ (n:ℚ) := by
      have : (1:ℚ) ≤ (n:ℚ) := by exact_mod_cast hn
      simpa using this
    exact (Int.zpow_le_iff_le_log (by norm_num) hq).1 h1n
  set e : ℤ := Int.log 2 (n:ℚ) with he
  have heval : fl64 (n:ℚ) = (rneQ ((n:ℚ) / 2^(e-52)) : ℚ) * 2^(e-52) := by
    apply fl64_eval
    · rw [show e - 52 + 52 = e from by ring]
      exact hlow
    · rw [show e - 52 + 53 = e + 1 from by ring]
      exact hhigh
  by_cases hbig : (2:ℚ)^53 ≤ (n:ℚ)
  · have h53 : 53 ≤ e := by
      apply (Int.zpow_le_iff_le_log (by norm_num) hq).1
      push_cast
      rw [show ((2:ℚ)^(53:ℤ)) = 9007199254740992 from by norm_num]
      rw [show ((2:ℚ)^(53:ℕ)) = 9007199254740992 from by norm_num] at hbig
      exact hbig
    have hx52 : (4503599627370496:ℚ) ≤ (n:ℚ) / 2^(e-52) := by
      rw [le_div_iff₀ (zpow_pos (by norm_num) _)]
      rw [show (4503599627370496:ℚ) = 2^(52:ℤ) from by norm_num]
      rw [← zpow_add₀ (by norm_num : (2:ℚ) ≠ 0)]
      rw [show (52:ℤ) + (e - 52) = e from by ring]
      exact hlow
    have hr52 : (4503599627370496:ℤ) ≤ rneQ ((n:ℚ) / 2^(e-52)) := by
      have h1 := le_rneQ ((n:ℚ) / 2^(e-52))
      have h3 : ((4503599627370495 : ℤ) : ℚ) < (rneQ ((n:ℚ) / 2^(e-52)) : ℚ) := by
        push_cast
        linarith
      have h4 : (4503599627370495 : ℤ) < rneQ ((n:ℚ) / 2^(e-52)) := by exact_mod_cast h3
      omega
  -- the mantissa is scaled back by at least one factor of two
    have hrnn : 0 ≤ rneQ ((n:ℚ) / 2^(e-52)) := le_trans (by norm_num) hr52
    have hcast : (((rneQ ((n:ℚ) / 2^(e-52))).toNat : ℕ) : ℚ) =
        ((rneQ ((n:ℚ) / 2^(e-52)) : ℤ) : ℚ) := by
      exact_mod_cast Int.toNat_of_nonneg hrnn
    refine ⟨(rneQ ((n:ℚ) / 2^(e-52))).toNat * 2^((e-52).toNat), ?_, ?_, ?_⟩
    · rw [heval]
      push_cast [Int.toNat_of_nonneg hrnn]
      rw [show ((2:ℚ)^((e-52).toNat : ℕ)) = (2:ℚ)^(((e-52).toNat : ℤ)) from
        (zpow_natCast 2 _).symm]
      rw [Int.toNat_of_nonneg (by omega : (0:ℤ) ≤ e - 52), hcast]
    · intro hsmall
      exact absurd hbig (not_le.2 hsmall)
    · intro _
      constructor
      · exact Dvd.dvd.mul_left (dvd_pow_self 2 (by omega : (e-52).toNat ≠ 0)) _
      · push_cast [Int.toNat_of_nonneg hrnn]
        rw [show ((2:ℚ)^((e-52).toNat : ℕ)) = (2:ℚ)^(((e-52).toNat : ℤ)) from
          (zpow_natCast 2 _).symm]
        rw [Int.toNat_of_nonneg (by omega : (0:ℤ) ≤ e - 52), hcast]
        have h2e : (2:ℚ) ≤ 2^(e-52) := by
          calc (2:ℚ) = 2^(1:ℤ) := by norm_num
            _ ≤ 2^(e-52) := zpow_le_zpow_right₀ (by norm_num) (by omega)
        have hrq : (4503599627370496:ℚ) ≤ (rneQ ((n:ℚ) / 2^(e-52)) : ℚ) := by
          exact_mod_cast hr52
        calc (2:ℚ)^(53:ℕ) = 4503599627370496 * 2 := by norm_num
          _ ≤ (rneQ ((n:ℚ) / 2^(e-52)) : ℚ) * 2^(e-52) := by
              apply mul_le_mul hrq h2e (by norm_num)
              linarith
  · push_neg at hbig
    refine ⟨n, ?_, fun _ => rfl, fun h => absurd h (not_le.2 hbig)⟩
    have he52 : e ≤ 52 := by
      by_contra hcon
      push_neg at hcon
      have h2e : (2:ℚ)^(53:ℤ) ≤ (2:ℚ)^e := zpow_le_zpow_right₀ (by norm_num) (by omega)
      have : (2:ℚ)^(53:ℕ) ≤ (n:ℚ) := by
        calc (2:ℚ)^(53:ℕ) = (2:ℚ)^(53:ℤ) := by norm_num
          _ ≤ 2^e := h2e
          _ ≤ n := hlow
      exact absurd this (not_le.2 hbig)
    have hxint : (n:ℚ) / 2^(e-52) = ((n * 2^((52-e).toNat) : ℕ) : ℚ) := by
      rw [div_eq_iff (ne_of_gt (zpow_pos (by norm_num) _))]
      push_cast
      rw [show ((2:ℚ)^((52-e).toNat : ℕ)) = (2:ℚ)^(((52-e).toNat : ℤ)) from
        (zpow_natCast 2 _).symm]
      rw [Int.toNat_of_nonneg (by omega : (0:ℤ) ≤ 52 - e)]
      rw [mul_assoc, ← zpow_add₀ (by norm_num : (2:ℚ) ≠ 0)]
      rw [show (52:ℤ) - e + (e - 52) = 0 from by ring]
      norm_num
    rw [heval, hxint]
    rw [show ((n * 2^((52-e).toNat) : ℕ) : ℚ) = (((n * 2^((52-e).toNat) : ℕ) : ℤ) : ℚ) from
      by push_cast; ring]
    rw [rneQ_intCast]
    push_cast
    rw [show ((2:ℚ)^((52-e).toNat : ℕ)) = (2:ℚ)^(((52-e).toNat : ℤ)) from
      (zpow_natCast 2 _).symm]
    rw [Int.toNat_of_nonneg (by omega : (0:ℤ) ≤ 52 - e)]
    rw [mul_assoc, ← zpow_add₀ (by norm_num : (2:ℚ) ≠ 0)]
    rw [show (52:ℤ) - e + (e - 52) = 0 from by ring]
    norm_num

/-- The JS remainder by `2^31` of a natural number is its `Nat` remainder. -/
lemma jsRem_natCast (n : ℕ) :
    jsRem (n:ℚ) 2147483648 = ((n % 2147483648 : ℕ) : ℚ) := by
  have hmp : (0:ℚ) < 2147483648 := by norm_num
  have hdm := Nat.div_add_mod n 2147483648
  have hml := Nat.mod_lt n (show 0 < 2147483648 from by norm_num)
  have hfloor : ⌊(n:ℚ) / 2147483648⌋ = ((n / 2147483648 : ℕ) : ℤ) := by
    rw [Int.floor_eq_iff]
    constructor
    · rw [le_div_iff₀ hmp]
      exact_mod_cast Nat.div_mul_le_self n 2147483648
    · rw [div_lt_iff₀ hmp]
      have : n < (n / 2147483648 + 1) * 2147483648 := by omega
      exact_mod_cast this
  unfold jsRem jsTrunc
  rw [if_pos (by positivity), hfloor, Int.cast_natCast]
  have h2 : ((2147483648 * (n / 2147483648) + n % 2147483648 : ℕ) : ℚ) = (n:ℚ) := by
    exact_mod_cast congrArg (fun k => ((k : ℕ) : ℚ)) hdm
  push_cast at h2
  linarith

/-- Rounding a positive value at most `1 - 1/(2^31 - 1)` to binary64 stays
strictly below `1`: the rounding error is at most `2^(-54)`, far smaller than
the gap. -/
lemma fl64_lt_one (q : ℚ) (h0 : 0 < q) (h1 : q ≤ 1 - 1/2147483647) : fl64 q < 1 := by
  have hneg : Int.log 2 q < 0 := by
    have h2' : q < ((2:ℕ):ℚ) ^ (0:ℤ) := by
      have : q < 1 := lt_of_le_of_lt h1 (by norm_num)
      simpa using this
    exact (Int.lt_zpow_iff_log_lt (by norm_num) h0).1 h2'
  set e : ℤ := Int.log 2 q with he
  have hlow : (2:ℚ)^e ≤ q := by
    have := Int.zpow_log_le_self (b := 2) (by norm_num) h0
    push_cast at this
    exact this
  have hhigh : q < (2:ℚ)^(e+1) := by
    have := Int.lt_zpow_succ_log_self (b := 2) (by norm_num) q
    push_cast at this
    exact this
  have heval : fl64 q = (rneQ (q / 2^(e-52)) : ℚ) * 2^(e-52) := by
    apply fl64_eval
    · rw [show e - 52 + 52 = e from by ring]
      exact hlow
    · rw [show e - 52 + 53 = e + 1 from by ring]
      exact hhigh
  have hpos : (0:ℚ) < 2^(e-52) := zpow_pos (by norm_num) _
  have hub : fl64 q ≤ q + 2^(e-52)/2 := by
    rw [heval]
    calc (rneQ (q / 2^(e-52)) : ℚ) * 2^(e-52) ≤ (q / 2^(e-52) + 1/2) * 2^(e-52) :=
          mul_le_mul_of_nonneg_right (rneQ_le _) (le_of_lt hpos)
      _ = q + 2^(e-52)/2 := by
          rw [add_mul, div_mul_cancel₀ _ (ne_of_gt hpos)]
          ring
  have hsmall : (2:ℚ)^(e-52)/2 ≤ 1/18014398509481984 := by
    rw [show (2:ℚ)^(e-52)/2 = 2^(e-53) from by
      rw [show e - 53 = e - 52 + -1 from by ring, zpow_add₀ (by norm_num : (2:ℚ) ≠ 0)]
      norm_num
      ring]
    calc (2:ℚ)^(e-53) ≤ 2^(-54:ℤ) := zpow_le_zpow_right₀ (by norm_num) (by omega)
      _ = 1/18014398509481984 := by norm_num
  have hgap : (1:ℚ)/18014398509481984 < 1/2147483647 := by norm_num
  linarith

/-- The only residue in `[0, 2^31)` that the exact LCG step sends to
`2^31 - 1` is `230538014`. -/
lemma lcg_mod_unique (r : ℕ) (hr : r < 2147483648)
    (hmod : (1103515245 * r + 12345) % 2147483648 = 2147483647) : r = 230538014 := by
  have hd1 := Nat.div_add_mod (1103515245 * r + 12345) 2147483648
  rw [hmod] at hd1
  have hints : (1103515245 : ℤ) * ((r:ℤ) - 230538014) =
      2147483648 * (((1103515245 * r + 12345) / 2147483648 : ℕ) - 118465261) := by
    have h1 : (2147483648 : ℤ) * ((1103515245 * r + 12345) / 2147483648 : ℕ) + 2147483647 =
        1103515245 * (r:ℤ) + 12345 := by exact_mod_cast hd1
    linear_combination -h1
  have hdvd : (2147483648:ℤ) ∣ 1103515245 * ((r:ℤ) - 230538014) :=
    ⟨((1103515245 * r + 12345) / 2147483648 : ℕ) - 118465261, hints⟩
  have hcop : IsCoprime (2147483648:ℤ) (1103515245:ℤ) := by
    have h : IsCoprime ((2147483648:ℕ):ℤ) ((1103515245:ℕ):ℤ) := by
      rw [Nat.isCoprime_iff_coprime]
      exact Nat.Coprime.pow_left 31 ((Nat.prime_two.coprime_iff_not_dvd).2 (by decide))
    exact_mod_cast h
  obtain ⟨t, ht⟩ := hcop.dvd_of_dvd_mul_left hdvd
  clear hdvd hcop hints hd1 hmod
  have hrZ : (r:ℤ) < 2147483648 := by exact_mod_cast hr
  have hrZ0 : (0:ℤ) ≤ (r:ℤ) := Int.natCast_nonneg r
  omega

/-- The shape of a hash value on a nonnegative integer seed: it is a natural
number below `2^31`, and it can be odd only when the whole LCG step stayed
below `2^53` and was therefore computed exactly. -/
lemma hash_natCast (S : ℕ) :
    ∃ n : ℕ, RNG.hash (S:ℚ) = (n:ℚ) ∧ n < 2147483648 ∧
      (¬ 2 ∣ n →
        1103515245 * S + 12345 < 9007199254740992 ∧
        n = (1103515245 * S + 12345) % 2147483648) := by
  have hprod : RNG.a * (S:ℚ) = ((1103515245 * S : ℕ) : ℚ) := by
    unfold RNG.a
    push_cast
    ring
  obtain ⟨m1, hm1, hsmall1, hbig1⟩ := fl64_natCast (1103515245 * S)
  obtain ⟨m2, hm2, hsmall2, hbig2⟩ := fl64_natCast (m1 + 12345)
  have hhash : RNG.hash (S:ℚ) = ((m2 % 2147483648 : ℕ) : ℚ) := by
    unfold RNG.hash RNG.m
    rw [hprod, hm1]
    rw [show ((m1:ℚ) + RNG.c) = ((m1 + 12345 : ℕ):ℚ) from by unfold RNG.c; push_cast; ring]
    rw [hm2, jsRem_natCast]
  refine ⟨m2 % 2147483648, hhash, Nat.mod_lt _ (by norm_num), ?_⟩
  intro hodd
  have hm2odd : ¬ 2 ∣ m2 := by
    intro h2
    exact hodd (by omega)
  have harg2small : ((m1 + 12345 : ℕ):ℚ) < 2^53 := by
    by_contra hcon
    push_neg at hcon
    exact hm2odd ((hbig2 hcon).1)
  have hm2eq : m2 = m1 + 12345 := hsmall2 harg2small
  have hm1small : ((1103515245 * S : ℕ):ℚ) < 2^53 := by
    by_contra hcon
    push_neg at hcon
    have hge := (hbig1 hcon).2
    have hle : (m1:ℚ) ≤ ((m1 + 12345 : ℕ):ℚ) := by
      push_cast
      linarith
    have : (2:ℚ)^53 < 2^53 := lt_of_le_of_lt (le_trans hge hle) harg2small
    exact absurd this (lt_irrefl _)
  have hm1eq : m1 = 1103515245 * S := hsmall1 hm1small
  constructor
  · have : ((1103515245 * S + 12345 : ℕ):ℚ) < 2^53 := by
      rw [← hm1eq]
      push_cast at harg2small ⊢
      exact harg2small
    have h9 : ((1103515245 * S + 12345 : ℕ):ℚ) < ((9007199254740992:ℕ):ℚ) := by
      rw [show ((9007199254740992:ℕ):ℚ) = 2^53 from by norm_num]
      exact this
    exact_mod_cast h9
  · rw [hm2eq, hm1eq]

/-- C9 counterexample: at seed `230538014` the claim's exact formula gives
`2^31 - 1`, but both the product and the sum exceed `2^53` and round in
binary64; the rounded sum is an exact multiple of `2^31`, so the program
computes hash `0` (and scale `0`), not the exact remainder. -/
theorem rng_scale_cex :
    RNG.hash 230538014 = 0 ∧
      ((1103515245 * 230538014 + 12345) % 2147483648 : ℤ) = 2147483647 ∧
      RNG.scale (RNG.hash 230538014) = 0 := by
  have hprod : RNG.a * (230538014:ℚ) = 254402213001023430 := by
    unfold RNG.a
    norm_num
  have hf1 : fl64 (254402213001023430:ℚ) = 254402213001023424 := by
    rw [fl64_eval (254402213001023430:ℚ) 5 (by norm_num) (by norm_num)]
    rw [show (254402213001023430:ℚ) / 2^(5:ℤ) = 7950069156281982 + 3/16 from by norm_num]
    rw [show rneQ ((7950069156281982:ℚ) + 3/16) = 7950069156281982 from by
      unfold rneQ
      rw [show ⌊(7950069156281982:ℚ) + 3/16⌋ = 7950069156281982 from by norm_num]
      rw [if_pos (by push_cast; norm_num)]]
    norm_num
  have hf2 : fl64 (254402213001035769:ℚ) = 254402213001035776 := by
    rw [fl64_eval (254402213001035769:ℚ) 5 (by norm_num) (by norm_num)]
    rw [show (254402213001035769:ℚ) / 2^(5:ℤ) = 7950069156282367 + 25/32 from by norm_num]
    rw [show rneQ ((7950069156282367:ℚ) + 25/32) = 7950069156282368 from by
      unfold rneQ
      rw [show ⌊(7950069156282367:ℚ) + 25/32⌋ = 7950069156282367 from by norm_num]
      rw [if_neg (by push_cast; norm_num), if_pos (by push_cast; norm_num)]
      norm_num]
    norm_num
  have hhash : RNG.hash 230538014 = 0 := by
    unfold RNG.hash RNG.m RNG.c
    rw [hprod, hf1]
    rw [show (254402213001023424:ℚ) + 12345 = 254402213001035769 from by norm_num]
    rw [hf2]
    unfold jsRem jsTrunc
    rw [if_pos (by positivity)]
    rw [show ⌊(254402213001035776:ℚ) / 2147483648⌋ = 118465262 from by norm_num]
    norm_num
  refine ⟨hhash, by decide, ?_⟩
  rw [hhash]
  unfold RNG.scale RNG.m
  rw [show (0:ℚ) / (2147483648 - 1) = 0 from by norm_num, fl64_zero]

/-- C9 (amended): in binary64 arithmetic, `hash` agrees with the claim's exact
LCG formula `(a * seed + c) mod 2^31` exactly while the sum stays below `2^53`
— in particular for every note-derived seed the engine uses — and for every
nonnegative integer seed below the overflow guard `2^960`, `scale (hash seed)`
lies in the half-open interval `[0, 1)`: every double at or above `2^53` is
even, so the odd remainder `2^31 - 1`, and with it `scale = 1`, is
unattainable. -/
theorem rng_amended :
    (∀ seed : ℕ, ((1103515245 * seed + 12345 : ℕ) : ℚ) < 2^53 →
      RNG.hash (seed:ℚ) = (((1103515245 * seed + 12345) % 2147483648 : ℕ) : ℚ)) ∧
    (∀ seed : ℕ, (seed:ℚ) ≤ 2^960 →
      0 ≤ RNG.scale (RNG.hash (seed:ℚ)) ∧ RNG.scale (RNG.hash (seed:ℚ)) < 1) := by
  constructor
  · intro seed hsmall
    obtain ⟨m1, hm1, hsmall1, -⟩ := fl64_natCast (1103515245 * seed)
    have hm1eq : m1 = 1103515245 * seed := by
      apply hsmall1
      have hmono : ((1103515245 * seed : ℕ):ℚ) ≤ ((1103515245 * seed + 12345 : ℕ):ℚ) := by
        exact_mod_cast Nat.le_add_right _ _
      linarith
    obtain ⟨m2, hm2, hsmall2, -⟩ := fl64_natCast (m1 + 12345)
    have hm2eq : m2 = m1 + 12345 := by
      apply hsmall2
      rw [hm1eq]
      exact hsmall
    have hprod : RNG.a * (seed:ℚ) = ((1103515245 * seed : ℕ) : ℚ) := by
      unfold RNG.a
      push_cast
      ring
    unfold RNG.hash RNG.m
    rw [hprod, hm1]
    rw [show ((m1:ℚ) + RNG.c) = ((m1 + 12345 : ℕ):ℚ) from by unfold RNG.c; push_cast; ring]
    rw [hm2, jsRem_natCast, hm2eq, hm1eq]
  · intro seed hbound
    obtain ⟨n, hn, hnlt, hodd⟩ := hash_natCast seed
    have hne : n ≠ 2147483647 := by
      intro hcon
      obtain ⟨hsum_small, hmod⟩ := hodd (by rw [hcon]; decide)
    -- reduce the congruence to the residue of the seed
      have hd := Nat.div_add_mod seed 2147483648
      have hmod2 : (1103515245 * (seed % 2147483648) + 12345) % 2147483648 = 2147483647 := by
        have hexp : 1103515245 * seed + 12345 =
            1103515245 * (seed % 2147483648) + 12345 +
              (1103515245 * (seed / 2147483648)) * 2147483648 := by
          conv_lhs => rw [← hd]
          ring
        rw [← hcon, hmod, hexp, Nat.add_mul_mod_self_right]
      have hres : seed % 2147483648 = 230538014 :=
        lcg_mod_unique _ (Nat.mod_lt _ (by norm_num)) hmod2
      clear hmod hmod2 hd hcon hodd hn
      omega
    have hle : n ≤ 2147483646 := by omega
    rw [hn]
    unfold RNG.scale RNG.m
    constructor
    · apply fl64_nonneg
      apply div_nonneg (Nat.cast_nonneg n)
      norm_num
    · rcases Nat.eq_zero_or_pos n with rfl | hpos
      · rw [show ((0:ℕ):ℚ) / (2147483648 - 1) = 0 from by norm_num, fl64_zero]
        norm_num
      · apply fl64_lt_one
        · have hnq : (0:ℚ) < (n:ℚ) := by exact_mod_cast hpos
          apply div_pos hnq
          norm_num
        · rw [show (2147483648:ℚ) - 1 = 2147483647 from by norm_num]
          rw [div_le_iff₀ (by norm_num : (0:ℚ) < 2147483647)]
          have hq : ((n:ℚ)) ≤ 2147483646 := by exact_mod_cast hle
          have hmul : ((1:ℚ) - 1/2147483647) * 2147483647 = 2147483646 := by norm_num
          linarith

/-- Witness for the amended C9 at seed 60 (a MIDI pitch, well inside the exact
region): the exact formula holds and the scaled hash lies in `[0, 1)`. -/
theorem rng_amended_witness :
    ((1103515245 * 60 + 12345 : ℕ) : ℚ) < 2^53 ∧
      RNG.hash ((60:ℕ):ℚ) = (((1103515245 * 60 + 12345) % 2147483648 : ℕ) : ℚ) ∧
      ((60:ℕ):ℚ) ≤ 2^960 ∧
      0 ≤ RNG.scale (RNG.hash ((60:ℕ):ℚ)) ∧ RNG.scale (RNG.hash ((60:ℕ):ℚ)) < 1 :=
  ⟨by norm_num, rng_amended.1 60 (by norm_num), by norm_num,
    (rng_amended.2 60 (by norm_num)).1, (rng_amended.2 60 (by norm_num)).2⟩

/-- The score blob of the C8 counterexample: its single data row has only
three columns and a non-numeric velocity field. -/
def malformedCsv : String :=
  "user_played,instrument,velocity,pitch,start,end\nTrue,piano,abc"

/-- C8 counterexample: the malformed blob does not fail the parse — it
produces a best-effort one-note list with `NaN`/`undefined` placeholders in
the missing and non-numeric fields. -/
theorem parse_cex :
    parseNotes malformedCsv =
      [{ user_played := true, instrument := some "piano", velocity := none,
         pitch := none, start := none, «end» := none, played_at := none }] := by
  decide

/-- C8 (amended): parsing is total and best-effort — every data row yields
exactly one note (malformed rows produce placeholder fields rather than
failing the parse), and on an empty note list `findLast` is `undefined`
rather than an error surfaced before the state machine is constructed. -/
theorem parse_amended (csv : String) :
    (parseNotes csv).length =
      ((splitOnChar '\n' (trimChars csv.data)).drop 1).length ∧
      findLastP [] = none := by
  exact ⟨by simp [parseNotes], rfl⟩

/-- The circle list of the lane branch, explicitly. -/
lemma laneUpdate_circles (s : State) (k : LaneKey) :
    (laneUpdate s k).circles = s.circles.enum.map (fun ic =>
      if markedB (prioritize (eligibleCircles s k)) ic.1 then
        { ic.2 with rendered := false, played := true }
      else ic.2) := rfl

/-- In a circle list with pairwise distinct bound notes, positions holding
equal notes coincide. -/
lemma nodup_note_index (l : List Body)
    (hnd : (l.map (fun c => c.note)).Nodup) {i j : ℕ} {x y : Body}
    (hi : l[i]? = some x) (hj : l[j]? = some y) (hxy : x.note = y.note) : i = j := by
  have hi' : (l.map (fun c => c.note))[i]? = some x.note := by
    rw [List.getElem?_map, hi]
    rfl
  have hj' : (l.map (fun c => c.note))[j]? = some y.note := by
    rw [List.getElem?_map, hj]
    rfl
  have hlen : i < (l.map (fun c => c.note)).length := by
    by_contra hcon
    rw [List.getElem?_eq_none (le_of_not_lt hcon)] at hi'
    exact Option.noConfusion hi'
  exact List.getElem?_inj hlen hnd (by rw [hi', hj', hxy])

/-- A lane action leaves every circle other than the selected one in place. -/
lemma laneUpdate_getElem_ne (s : State) (k : LaneKey) (p : ℕ × Body)
    (hp : prioritize (eligibleCircles s k) = some p) (j : ℕ) (hj : j ≠ p.1) :
    (laneUpdate s k).circles[j]? = s.circles[j]? := by
  rw [laneUpdate_circles, hp, List.getElem?_map, List.getElem?_enum, Option.map_map]
  cases hc : s.circles[j]? with
  | none => rfl
  | some c =>
    have hm : markedB (some p) j = false := by
      simp [markedB, beq_eq_false_iff_ne.2 hj]
    simp [hm]

/-- A lane action replaces the selected circle, at its position, by the same
circle marked unrendered and played. -/
lemma laneUpdate_getElem_marked (s : State) (k : LaneKey) (p : ℕ × Body)
    (hp : prioritize (eligibleCircles s k) = some p)
    (hpen : s.circles[p.1]? = some p.2) :
    (laneUpdate s k).circles[p.1]? =
      some { p.2 with rendered := false, played := true } := by
  rw [laneUpdate_circles, hp, List.getElem?_map, List.getElem?_enum, hpen]
  simp [markedB]

/-- C1: while unpaused, the candidates of a lane key are exactly the circles
on the pressed lane that are rendered, unplayed and whose note start is within
0.7 s of the current time; when a selection exists it is a candidate of
earliest start (keeping the first on ties), it alone is marked played and
unrendered while every other circle is unchanged, and repeating the identical
key on the resulting state finds no remaining candidate for that note; with no
candidates the circle list is unchanged. -/
theorem hit_selection (s : State) (k : LaneKey) (h : s.paused = false) :
    (∀ i c, ((i, c) ∈ eligibleCircles s k ↔ s.circles[i]? = some c ∧
      keyToColumn k = c.cx ∧ |c.note.start - s.time| < 7/10 ∧
      c.rendered = true ∧ c.played = false)) ∧
    (prioritize (eligibleCircles s k) = none →
      (reduce s (GAction.key k)).circles = s.circles) ∧
    (∀ p, prioritize (eligibleCircles s k) = some p →
      p ∈ eligibleCircles s k ∧
      (∀ q ∈ eligibleCircles s k, p.2.note.start ≤ q.2.note.start) ∧
      (∃ pre post, eligibleCircles s k = pre ++ p :: post ∧
        ∀ q ∈ pre, p.2.note.start < q.2.note.start) ∧
      (reduce s (GAction.key k)).circles.length = s.circles.length ∧
      (reduce s (GAction.key k)).circles[p.1]? =
        some { p.2 with rendered := false, played := true } ∧
      (∀ j, j ≠ p.1 → (reduce s (GAction.key k)).circles[j]? = s.circles[j]?) ∧
      ((s.circles.map (fun c => c.note)).Nodup →
        ∀ q ∈ eligibleCircles (reduce s (GAction.key k)) k, q.2.note ≠ p.2.note)) := by
  rw [reduce_key s k h]
  refine ⟨?_, ?_, ?_⟩
  · intro i c
    rw [eligibleCircles, List.mem_filter, List.mk_mem_enum_iff_getElem?, eligB_iff]
  · intro hnone
    rw [laneUpdate_circles, hnone]
    have hid : ∀ ic ∈ s.circles.enum,
        (if markedB none ic.1 then { ic.2 with rendered := false, played := true }
          else ic.2) = Prod.snd ic := by
      intro ic _
      simp [markedB]
    rw [List.map_congr_left hid, List.enum_map_snd]
  · intro p hp
    have hmem := prioritize_mem _ _ hp
    have hpen : s.circles[p.1]? = some p.2 :=
      List.mem_enum_iff_getElem?.1 (List.mem_filter.1 hmem).1
    refine ⟨hmem, prioritize_min _ _ hp, ?_, ?_,
      laneUpdate_getElem_marked s k p hp hpen, laneUpdate_getElem_ne s k p hp, ?_⟩
    · obtain ⟨pre, post, heq, hpre, -⟩ := prioritize_spec _ _ hp
      exact ⟨pre, post, heq, hpre⟩
    · rw [laneUpdate_circles]
      simp [List.enum_length]
    · intro hnd q hq hqnote
      have hqen : (laneUpdate s k).circles[q.1]? = some q.2 :=
        List.mem_enum_iff_getElem?.1 (List.mem_filter.1 hq).1
      have hqrend : q.2.rendered = true :=
        ((eligB_iff _ _ _).1 (List.mem_filter.1 hq).2).2.2.1
      by_cases hij : q.1 = p.1
      · rw [hij, laneUpdate_getElem_marked s k p hp hpen] at hqen
        have hq2 : q.2 = { p.2 with rendered := false, played := true } :=
          Option.some_injective _ hqen.symm
        rw [hq2] at hqrend
        exact Bool.noConfusion hqrend
      · rw [laneUpdate_getElem_ne s k p hp q.1 hij] at hqen
        exact hij (nodup_note_index s.circles hnd hqen hpen hqnote)

/-- Witness for C1: at the concrete state the single circle is selected and
its position is replaced by the consumed copy. -/
theorem hit_selection_witness :
    hitState.paused = false ∧
      (reduce hitState (GAction.key LaneKey.H)).circles[0]? =
        some { circleAt 2 (5/2) with rendered := false, played := true } :=
  ⟨rfl, (((hit_selection hitState LaneKey.H rfl).2.2 _ hitState_prio)).2.2.2.2.1⟩

/-- Induction invariant behind the at-most-one-token property: the user note
list is fixed, the circles' bound notes are pairwise distinct, and every
on-screen circle was spawned for a note whose start has already entered the
spawn window.  Distinctness of the `userNotes` entries renders JavaScript
object identity of the parsed note records. -/
def TokenInv (U : List NoteData) (s : State) : Prop :=
  s.userNotes = U ∧ (s.circles.map (fun c => c.note)).Nodup ∧
    ∀ c ∈ s.circles, c.note.start < s.time + Time.OFFSET

/-- `tick` preserves the token invariant: survivors keep distinct notes, and a
freshly spawned note lies in the new spawn window, disjoint from every note
already on screen. -/
lemma tokenInv_tick (U : List NoteData) (hU : U.Nodup) (s : State)
    (h : TokenInv U s) : TokenInv U (tick s) := by
  obtain ⟨hUeq, hnd, hbound⟩ := h
  have holdmap : ((s.circles.filter (fun c => c.rendered)).map advanceCircle).map
      (fun c => c.note) = (s.circles.filter (fun c => c.rendered)).map (fun c => c.note) := by
    rw [List.map_map]
    exact List.map_congr_left (fun c _ => advanceCircle_note c)
  have hnewmap : (newCirclesOf s).map (fun c => c.note) = newNotesOf s := by
    unfold newCirclesOf
    rw [List.map_map]
    calc (newNotesOf s).map ((fun c => c.note) ∘ mkCircle)
        = (newNotesOf s).map (fun n => n) :=
          List.map_congr_left (fun n _ => mkCircle_note n)
      _ = newNotesOf s := List.map_id' _
  refine ⟨hUeq, ?_, ?_⟩
  · show ((updatedCirclesOf s).map (fun c => c.note)).Nodup
    unfold updatedCirclesOf
    rw [List.map_append, List.nodup_append]
    refine ⟨?_, ?_, ?_⟩
    · rw [holdmap]
      exact hnd.sublist (List.Sublist.map _ (List.filter_sublist _))
    · rw [hnewmap]
      unfold newNotesOf
      rw [hUeq]
      exact hU.sublist (List.filter_sublist _)
    · intro a ha hb
      rw [holdmap] at ha
      rw [hnewmap] at hb
      obtain ⟨c0, hc0, heqa⟩ := List.mem_map.1 ha
      have hain : a.start < s.time + Time.OFFSET := by
        rw [← heqa]
        exact hbound c0 (List.mem_of_mem_filter hc0)
      have hbin : s.time + Time.OFFSET ≤ a.start := by
        have := (List.mem_filter.1 hb).2
        simp only [decide_eq_true_eq] at this
        exact this.2
      exact absurd hain (not_lt.2 hbin)
  · intro c hc
    have htime : s.time < (tick s).time := time_lt_roundedTime s
    rcases List.mem_append.1 hc with hc' | hc'
    · obtain ⟨c0, hc0, rfl⟩ := List.mem_map.1 hc'
      rw [advanceCircle_note]
      have := hbound c0 (List.mem_of_mem_filter hc0)
      calc c0.note.start < s.time + Time.OFFSET := this
        _ < (tick s).time + Time.OFFSET := by linarith
    · obtain ⟨n, hn, rfl⟩ := List.mem_map.1 hc'
      rw [mkCircle_note]
      have := (List.mem_filter.1 hn).2
      simp only [decide_eq_true_eq] at this
      exact this.1

/-- The lane branch preserves the token invariant: notes, time and user notes
are untouched. -/
lemma tokenInv_lane (U : List NoteData) (s : State) (k : LaneKey)
    (h : TokenInv U s) : TokenInv U (laneUpdate s k) := by
  obtain ⟨hUeq, hnd, hbound⟩ := h
  refine ⟨hUeq, ?_, ?_⟩
  · rw [laneUpdate_map_note]
    exact hnd
  · intro c hc
    have hmm : c.note ∈ (laneUpdate s k).circles.map (fun c => c.note) :=
      List.mem_map_of_mem _ hc
    rw [laneUpdate_map_note] at hmm
    obtain ⟨c0, hc0, heq⟩ := List.mem_map.1 hmm
    show c.note.start < s.time + Time.OFFSET
    rw [← heq]
    exact hbound c0 hc0

/-- Every reducer step preserves the token invariant. -/
lemma tokenInv_reduce (U : List NoteData) (hU : U.Nodup) (s : State)
    (a : GAction) (h : TokenInv U s) : TokenInv U (reduce s a) := by
  cases a with
  | esc => exact ⟨h.1, h.2.1, h.2.2⟩
  | tick =>
    cases hps : s.paused with
    | false =>
      rw [reduce_tick s hps]
      exact tokenInv_tick U hU s h
    | true =>
      have hid : reduce s GAction.tick = s := by simp [reduce, hps]
      rw [hid]
      exact h
  | key k =>
    cases hps : s.paused with
    | false =>
      rw [reduce_key s k hps]
      exact tokenInv_lane U s k h
    | true =>
      have hid : reduce s (GAction.key k) = s := by simp [reduce, hps]
      rw [hid]
      exact h

/-- The token invariant holds along every action sequence from the initial
state. -/
lemma tokenInv_runActions (U : List NoteData) (hU : U.Nodup)
    (acts : List GAction) (s : State) (h : TokenInv U s) :
    TokenInv U (runActions s acts) := by
  induction acts generalizing s with
  | nil => exact h
  | cons a rest ih => exact ih (reduce s a) (tokenInv_reduce U hU s a h)

/-- C7: in every state reachable from the initial state by ticks, lane keys
and pause toggles, no two circles bound to the same note (with pairwise
distinct user note records, as object identity guarantees in the source) are
simultaneously rendered. -/
theorem at_most_one_token (Notes AutoNotes U : List NoteData)
    (LastNote : NoteData) (hU : U.Nodup) (acts : List GAction) :
    (runActions (initialState Notes U AutoNotes LastNote) acts).circles.Pairwise
      (fun c₁ c₂ => ¬(c₁.note = c₂.note ∧ c₁.rendered = true ∧ c₂.rendered = true)) := by
  have hinit : TokenInv U (initialState Notes U AutoNotes LastNote) := by
    refine ⟨rfl, ?_, ?_⟩
    · simp [initialState]
    · intro c hc
      simp [initialState] at hc
  have hinv := tokenInv_runActions U hU acts _ hinit
  have hnd := hinv.2.1
  have hpw := List.pairwise_map.1 hnd
  exact hpw.imp (fun hne hcon => hne hcon.1)

/-- Witness for C7: from a one-note score, tick twice (spawning the circle)
and hit it; the pairwise property holds along the way. -/
theorem at_most_one_token_witness :
    (runActions (initialState [] [noteAt 0 (1/2)] [] (noteAt 0 (1/2)))
      [GAction.tick, GAction.tick, GAction.key LaneKey.H]).circles.Pairwise
      (fun c₁ c₂ => ¬(c₁.note = c₂.note ∧ c₁.rendered = true ∧ c₂.rendered = true)) :=
  at_most_one_token [] [] [noteAt 0 (1/2)] (noteAt 0 (1/2)) (by simp) _

/-- Witness for C2: an exact-time hit at the concrete state scores 10. -/
theorem scoring_tiers_witness :
    hitState.paused = false ∧
      (reduce hitState (GAction.key LaneKey.H)).score = hitState.score + 10 := by
  refine ⟨rfl, ?_⟩
  have h := ((scoring_tiers hitState LaneKey.H rfl).2 _ hitState_prio).2.1
  apply h
  norm_num [circleAt, mkCircle, noteAt, hitState, baseState]

end GuitarHero
